import Mathlib

/-!
Verification of the mini-UART driver (`pi/src/uart.rs`).

The driver talks to hardware only through volatile register accesses and a
monotonic clock.  We embed it shallowly: a `HwEnv` fixes, as streams indexed
by access count, the value the hardware returns for every volatile read of
the line-status register (`LSR`), the data register (`IO`, receive side) and
the clock; a `HwSt` counts how many of each read have happened so far and
logs the bytes written to the data register (transmit side).  Loops that the
Rust code writes as unbounded spins become fuel-indexed functions returning
`Option`: `none` means the fuel ran out before the spin condition was met,
so a spin that never exits is `none` at every fuel.

Initialization (`MiniUart::new`) touches a different set of registers; it is
embedded separately as a pure state transformer over `MuRegs` that also
emits the ordered list of hardware effects it performs.
-/

/-- Streams of values produced by the simulated hardware: the value of the
j-th clock read, the i-th line-status-register read, and the n-th read of
the data register. -/
structure HwEnv where
  clock : Nat → Nat
  lsr : Nat → Nat
  rx : Nat → Nat

/-- Volatile-access state: how many clock / LSR / data-register reads have
happened, and the bytes written to the data register, in order. -/
structure HwSt where
  clockIdx : Nat
  lsrIdx : Nat
  rxIdx : Nat
  writes : List Nat
deriving DecidableEq

/-- The state of a freshly started trace: no accesses yet. -/
def HwSt.init : HwSt := ⟨0, 0, 0, []⟩

/-- One volatile read of the line-status register. -/
def readLSR (env : HwEnv) (s : HwSt) : Nat × HwSt :=
  (env.lsr s.lsrIdx, { s with lsrIdx := s.lsrIdx + 1 })

/-- One call to `timer::current_time()`. -/
def readClock (env : HwEnv) (s : HwSt) : Nat × HwSt :=
  (env.clock s.clockIdx, { s with clockIdx := s.clockIdx + 1 })

/-- One volatile read of the data register (pops a received byte). -/
def readDataReg (env : HwEnv) (s : HwSt) : Nat × HwSt :=
  (env.rx s.rxIdx, { s with rxIdx := s.rxIdx + 1 })

/-- One volatile write of the data register (pushes a byte to transmit). -/
def writeDataReg (b : Nat) (s : HwSt) : HwSt :=
  { s with writes := s.writes ++ [b] }

/-- `LsrStatus::DataReady` from `uart.rs`. -/
def LsrStatus.DataReady : Nat := 1

/-- `LsrStatus::TxAvailable` from `uart.rs`. -/
def LsrStatus.TxAvailable : Nat := 1 <<< 5

/-- The driver state: the register handle lives in the trace, so only the
optional read timeout (milliseconds) remains. -/
structure MiniUart where
  timeout : Option Nat
deriving DecidableEq

/-- `MiniUart::set_read_timeout`. -/
def MiniUart.set_read_timeout (u : MiniUart) (milliseconds : Nat) : MiniUart :=
  { u with timeout := some milliseconds }

/-- `MiniUart::has_byte`: one LSR read, tests the data-ready bit. -/
def has_byte (env : HwEnv) (s : HwSt) : Bool × HwSt :=
  let p := readLSR env s
  (p.1 &&& LsrStatus.DataReady != 0, p.2)

/-- The value `has_byte` observes at the i-th LSR read of the trace. -/
def hasByteAt (env : HwEnv) (i : Nat) : Bool :=
  env.lsr i &&& LsrStatus.DataReady != 0

/-- The transmit-available bit as observed at the i-th LSR read. -/
def txReadyAt (env : HwEnv) (i : Nat) : Bool :=
  env.lsr i &&& LsrStatus.TxAvailable != 0

/-- The `while !self.has_byte()` loop of `MiniUart::wait_for_byte`, with
`start` already captured.  Each iteration polls `has_byte`; on failure, if a
timeout is configured it reads the clock and gives up past the deadline. -/
def wfbLoop (u : MiniUart) (env : HwEnv) (start : Nat) :
    Nat → HwSt → Option (Except Unit Unit × HwSt)
  | 0, _ => none
  | fuel + 1, s =>
    let p := has_byte env s
    if p.1 then
      some (Except.ok (), p.2)
    else
      match u.timeout with
      | some ms =>
        let q := readClock env p.2
        if q.1 > start + ms * 1000 then
          some (Except.error (), q.2)
        else
          wfbLoop u env start fuel q.2
      | none => wfbLoop u env start fuel p.2

/-- `MiniUart::wait_for_byte`: captures `start` from the clock, then loops. -/
def MiniUart.wait_for_byte (u : MiniUart) (env : HwEnv) (s : HwSt) (fuel : Nat) :
    Option (Except Unit Unit × HwSt) :=
  let p := readClock env s
  wfbLoop u env p.1 fuel p.2

/-- `MiniUart::read_byte`: spins on `has_byte`, then reads the data
register.  The configured timeout is not consulted. -/
def MiniUart.read_byte (u : MiniUart) (env : HwEnv) : HwSt → Nat → Option (Nat × HwSt)
  | _, 0 => none
  | s, fuel + 1 =>
    let p := has_byte env s
    if p.1 then
      some (readDataReg env p.2)
    else
      MiniUart.read_byte u env p.2 fuel

/-- `MiniUart::write_byte`: spins while the LSR transmit-available bit is
clear, then writes the byte to the data register. -/
def MiniUart.write_byte (u : MiniUart) (env : HwEnv) (byte : Nat) : HwSt → Nat → Option HwSt
  | _, 0 => none
  | s, fuel + 1 =>
    let p := readLSR env s
    if p.1 &&& LsrStatus.TxAvailable == 0 then
      MiniUart.write_byte u env byte p.2 fuel
    else
      some (writeDataReg byte p.2)

/-- `fmt::Write::write_str`: for each input byte, a line feed is preceded by
a carriage return; every byte goes out through `write_byte`; returns `Ok`. -/
def MiniUart.write_str (u : MiniUart) (env : HwEnv) :
    List Nat → HwSt → Nat → Option (Except Unit Unit × HwSt)
  | [], s, _ => some (Except.ok (), s)
  | b :: rest, s, fuel =>
    match (if b == 10 then u.write_byte env 13 s fuel else some s) with
    | none => none
    | some s1 =>
      match u.write_byte env b s1 fuel with
      | none => none
      | some s2 => MiniUart.write_str u env rest s2 fuel

/-- The spec-side description of the text-write output: each line feed is
expanded to carriage return then line feed, other bytes pass through. -/
def crlfExpand : List Nat → List Nat
  | [] => []
  | b :: rest => (if b == 10 then [13, b] else [b]) ++ crlfExpand rest

/-- The error kind `io::ErrorKind::TimedOut` surfaced by the buffered read. -/
inductive IoErrorKind
  | timedOut
deriving DecidableEq

/-- Results of the wait loop can be compared by evaluation; `Except` over
`Unit` carries no data. -/
instance : DecidableEq (Except Unit Unit) := fun a b =>
  match a, b with
  | Except.ok (), Except.ok () => isTrue rfl
  | Except.error (), Except.error () => isTrue rfl
  | Except.ok (), Except.error () => isFalse fun h => Except.noConfusion h
  | Except.error (), Except.ok () => isFalse fun h => Except.noConfusion h

/-- The `while let (Some(b), true) = (iter.next(), self.has_byte())` loop of
`io::Read::read`.  Both tuple components are evaluated each iteration, so
`has_byte` performs its LSR read even when the buffer is exhausted. -/
def drainLoop (u : MiniUart) (env : HwEnv) (fuel : Nat) :
    List Nat → HwSt → Option (Nat × List Nat × HwSt)
  | [], s => some (0, [], (has_byte env s).2)
  | b :: rest, s =>
    let p := has_byte env s
    if p.1 then
      match u.read_byte env p.2 fuel with
      | none => none
      | some xs =>
        match drainLoop u env fuel rest xs.2 with
        | none => none
        | some r => some (r.1 + 1, xs.1 :: r.2.1, r.2.2)
    else
      some (0, b :: rest, p.2)

/-- `io::Read::read` for `MiniUart`: wait for a byte (propagating a timeout
as `IoErrorKind.timedOut` with the buffer untouched), then drain whatever is
immediately available into the buffer. -/
def MiniUart.read (u : MiniUart) (env : HwEnv) (buf : List Nat) (s : HwSt) (fuel : Nat) :
    Option (Except IoErrorKind Nat × List Nat × HwSt) :=
  match u.wait_for_byte env s fuel with
  | none => none
  | some (Except.error (), s1) => some (Except.error IoErrorKind.timedOut, buf, s1)
  | some (Except.ok (), s1) =>
    match drainLoop u env fuel buf s1 with
    | none => none
    | some r => some (Except.ok r.1, r.2.1, r.2.2)

/-- The loop body of `io::Write::write`: every byte goes through
`write_byte`. -/
def writeAll (u : MiniUart) (env : HwEnv) : List Nat → HwSt → Nat → Option HwSt
  | [], s, _ => some s
  | b :: rest, s, fuel =>
    match u.write_byte env b s fuel with
    | none => none
    | some s1 => writeAll u env rest s1 fuel

/-- `io::Write::write` for `MiniUart`: writes the whole buffer and reports
its full length. -/
def MiniUart.write (u : MiniUart) (env : HwEnv) (buf : List Nat) (s : HwSt) (fuel : Nat) :
    Option (Except IoErrorKind Nat × HwSt) :=
  match writeAll u env buf s fuel with
  | none => none
  | some s1 => some (Except.ok buf.length, s1)

/-- `io::Write::flush` for `MiniUart`: a no-op that succeeds. -/
def MiniUart.flush (_ : MiniUart) : Except IoErrorKind Unit := Except.ok ()

/-- The registers `MiniUart::new` writes: the auxiliary-enable register and
the `LCR`, `BAUD` and `CNTL` registers of the mini-UART block. -/
structure MuRegs where
  auxEnables : Nat
  lcr : Nat
  baud : Nat
  cntl : Nat
deriving DecidableEq

/-- The hardware effects `MiniUart::new` performs, in order: pin alternate
function selection, the read-modify-write on the auxiliary-enable register,
and the three plain register writes. -/
inductive InitEffect
  | setPinAlt (pin : Nat) (altFn : Nat)
  | orMaskAuxEnables (mask : Nat)
  | writeLcr (v : Nat)
  | writeBaud (v : Nat)
  | writeCntl (v : Nat)
deriving DecidableEq

/-- `Function::Alt5` from `gpio.rs`, the serial alternate function id. -/
def FunctionAlt5 : Nat := 5

/-- `MiniUart::new`: pins 14 and 15 to Alt5, auxiliary enable via
`or_mask(1)`, `LCR := 0b11`, `BAUD := 270`, `CNTL := 0b11`, no timeout.
Returns the driver, the final register state and the ordered effect list. -/
def MiniUart.new (r : MuRegs) : (MiniUart × MuRegs) × List InitEffect :=
  let t0 : List InitEffect :=
    [InitEffect.setPinAlt 14 FunctionAlt5, InitEffect.setPinAlt 15 FunctionAlt5]
  let r1 := { r with auxEnables := r.auxEnables ||| 1 }
  let t1 := t0 ++ [InitEffect.orMaskAuxEnables 1]
  let r2 := { r1 with lcr := 0b11 }
  let t2 := t1 ++ [InitEffect.writeLcr 0b11]
  let r3 := { r2 with baud := 270 }
  let t3 := t2 ++ [InitEffect.writeBaud 270]
  let r4 := { r3 with cntl := 0b11 }
  let t4 := t3 ++ [InitEffect.writeCntl 0b11]
  ((⟨none⟩, r4), t4)

/-- A trace whose clock advances by 100 microseconds per read and whose
data-ready bit never sets. -/
def cenvNever : HwEnv := ⟨fun j => 100 * j, fun _ => 0, fun _ => 0⟩

/-- A trace whose data-ready bit is always set and whose received bytes are
all zero. -/
def cenvReady : HwEnv := ⟨fun _ => 0, fun _ => 1, fun _ => 0⟩

/-- A trace whose transmit-available bit is always set. -/
def cenvTx : HwEnv := ⟨fun _ => 0, fun _ => 32, fun _ => 0⟩

/-- A trace whose clock jumps 2000 microseconds per read with the data-ready
bit never set. -/
def cenvTimeout : HwEnv := ⟨fun j => 2000 * j, fun _ => 0, fun _ => 0⟩

/-- A trace whose data-ready bit is set for the first five LSR reads and
then clear, delivering bytes 50, 51, ... -/
def cenvBurst : HwEnv := ⟨fun _ => 0, fun i => if i < 5 then 1 else 0, fun j => 50 + j⟩

theorem has_byte_eq (env : HwEnv) (s : HwSt) :
    has_byte env s = (hasByteAt env s.lsrIdx, { s with lsrIdx := s.lsrIdx + 1 }) := rfl

theorem wfbLoop_succ_true (u : MiniUart) (env : HwEnv) (start fuel c l x : Nat)
    (w : List Nat) (h : hasByteAt env l = true) :
    wfbLoop u env start (fuel + 1) ⟨c, l, x, w⟩ = some (Except.ok (), ⟨c, l + 1, x, w⟩) := by
  simp [wfbLoop, has_byte, readLSR, hasByteAt] at h ⊢
  simp [h]

theorem wfbLoop_succ_false_none (env : HwEnv) (start fuel c l x : Nat)
    (w : List Nat) (h : hasByteAt env l = false) :
    wfbLoop ⟨none⟩ env start (fuel + 1) ⟨c, l, x, w⟩ =
      wfbLoop ⟨none⟩ env start fuel ⟨c, l + 1, x, w⟩ := by
  simp [wfbLoop, has_byte, readLSR, hasByteAt] at h ⊢
  simp [h]

theorem wfbLoop_succ_false_some_le (env : HwEnv) (start ms fuel c l x : Nat)
    (w : List Nat) (h : hasByteAt env l = false)
    (hc : env.clock c ≤ start + ms * 1000) :
    wfbLoop ⟨some ms⟩ env start (fuel + 1) ⟨c, l, x, w⟩ =
      wfbLoop ⟨some ms⟩ env start fuel ⟨c + 1, l + 1, x, w⟩ := by
  simp [wfbLoop, has_byte, readLSR, readClock, hasByteAt] at h ⊢
  simp [h, Nat.not_lt.mpr hc]

theorem wfbLoop_succ_false_some_gt (env : HwEnv) (start ms fuel c l x : Nat)
    (w : List Nat) (h : hasByteAt env l = false)
    (hc : start + ms * 1000 < env.clock c) :
    wfbLoop ⟨some ms⟩ env start (fuel + 1) ⟨c, l, x, w⟩ =
      some (Except.error (), ⟨c + 1, l + 1, x, w⟩) := by
  simp [wfbLoop, has_byte, readLSR, readClock, hasByteAt] at h ⊢
  simp [h, hc]

theorem wait_for_byte_eq (u : MiniUart) (env : HwEnv) (s : HwSt) (fuel : Nat) :
    MiniUart.wait_for_byte u env s fuel =
      wfbLoop u env (env.clock s.clockIdx) fuel { s with clockIdx := s.clockIdx + 1 } := rfl

theorem wfbLoop_some_ok (env : HwEnv) (start ms : Nat) :
    ∀ (n c l x : Nat) (w : List Nat),
      (∀ i, i < n → hasByteAt env (l + i) = false) →
      (∀ i, i < n → env.clock (c + i) ≤ start + ms * 1000) →
      hasByteAt env (l + n) = true →
      wfbLoop ⟨some ms⟩ env start (n + 1) ⟨c, l, x, w⟩ =
        some (Except.ok (), ⟨c + n, l + n + 1, x, w⟩) := by
  intro n
  induction n with
  | zero =>
    intro c l x w _ _ hb
    rw [Nat.add_zero] at hb
    rw [wfbLoop_succ_true _ env start 0 c l x w hb]
    simp
  | succ m ih =>
    intro c l x w hfalse hclk hb
    have h0 : hasByteAt env l = false := by simpa using hfalse 0 (by omega)
    have hc0 : env.clock c ≤ start + ms * 1000 := by simpa using hclk 0 (by omega)
    rw [wfbLoop_succ_false_some_le env start ms (m + 1) c l x w h0 hc0]
    have step := ih (c + 1) (l + 1) x w
      (fun i hi => by
        have e : l + 1 + i = l + (i + 1) := by omega
        rw [e]; exact hfalse (i + 1) (by omega))
      (fun i hi => by
        have e : c + 1 + i = c + (i + 1) := by omega
        rw [e]; exact hclk (i + 1) (by omega))
      (by
        have e : l + 1 + m = l + (m + 1) := by omega
        rw [e]; exact hb)
    have e1 : c + (m + 1) = c + 1 + m := by omega
    have e2 : l + (m + 1) + 1 = l + 1 + m + 1 := by omega
    rw [e1, e2]
    exact step

theorem wfbLoop_some_err (env : HwEnv) (start ms : Nat) :
    ∀ (n c l x : Nat) (w : List Nat),
      (∀ i, i ≤ n → hasByteAt env (l + i) = false) →
      (∀ i, i < n → env.clock (c + i) ≤ start + ms * 1000) →
      start + ms * 1000 < env.clock (c + n) →
      wfbLoop ⟨some ms⟩ env start (n + 1) ⟨c, l, x, w⟩ =
        some (Except.error (), ⟨c + n + 1, l + n + 1, x, w⟩) := by
  intro n
  induction n with
  | zero =>
    intro c l x w hfalse _ hgt
    have h0 : hasByteAt env l = false := by simpa using hfalse 0 (by omega)
    rw [Nat.add_zero] at hgt
    rw [wfbLoop_succ_false_some_gt env start ms 0 c l x w h0 hgt]
  | succ m ih =>
    intro c l x w hfalse hclk hgt
    have h0 : hasByteAt env l = false := by simpa using hfalse 0 (by omega)
    have hc0 : env.clock c ≤ start + ms * 1000 := by simpa using hclk 0 (by omega)
    rw [wfbLoop_succ_false_some_le env start ms (m + 1) c l x w h0 hc0]
    have step := ih (c + 1) (l + 1) x w
      (fun i hi => by
        have e : l + 1 + i = l + (i + 1) := by omega
        rw [e]; exact hfalse (i + 1) (by omega))
      (fun i hi => by
        have e : c + 1 + i = c + (i + 1) := by omega
        rw [e]; exact hclk (i + 1) (by omega))
      (by
        have e : c + 1 + m = c + (m + 1) := by omega
        rw [e]; exact hgt)
    have e1 : c + (m + 1) + 1 = c + 1 + m + 1 := by omega
    have e2 : l + (m + 1) + 1 = l + 1 + m + 1 := by omega
    rw [e1, e2]
    exact step

theorem wfbLoop_none_ok (env : HwEnv) (start : Nat) :
    ∀ (n c l x : Nat) (w : List Nat),
      (∀ i, i < n → hasByteAt env (l + i) = false) →
      hasByteAt env (l + n) = true →
      wfbLoop ⟨none⟩ env start (n + 1) ⟨c, l, x, w⟩ =
        some (Except.ok (), ⟨c, l + n + 1, x, w⟩) := by
  intro n
  induction n with
  | zero =>
    intro c l x w _ hb
    rw [Nat.add_zero] at hb
    rw [wfbLoop_succ_true _ env start 0 c l x w hb]
  | succ m ih =>
    intro c l x w hfalse hb
    have h0 : hasByteAt env l = false := by simpa using hfalse 0 (by omega)
    rw [wfbLoop_succ_false_none env start (m + 1) c l x w h0]
    have step := ih c (l + 1) x w
      (fun i hi => by
        have e : l + 1 + i = l + (i + 1) := by omega
        rw [e]; exact hfalse (i + 1) (by omega))
      (by
        have e : l + 1 + m = l + (m + 1) := by omega
        rw [e]; exact hb)
    have e2 : l + (m + 1) + 1 = l + 1 + m + 1 := by omega
    rw [e2]
    exact step

theorem wfbLoop_none_never (env : HwEnv) (start : Nat) :
    ∀ (fuel c l x : Nat) (w : List Nat),
      (∀ i, hasByteAt env (l + i) = false) →
      wfbLoop ⟨none⟩ env start fuel ⟨c, l, x, w⟩ = none := by
  intro fuel
  induction fuel with
  | zero => intro c l x w _; rfl
  | succ f ih =>
    intro c l x w hf
    rw [wfbLoop_succ_false_none env start f c l x w (by simpa using hf 0)]
    exact ih c (l + 1) x w (fun i => by
      have e : l + 1 + i = l + (i + 1) := by omega
      rw [e]; exact hf (i + 1))

theorem wfbLoop_none_no_err (env : HwEnv) (start : Nat) :
    ∀ (fuel : Nat) (s : HwSt) (r : Except Unit Unit × HwSt),
      wfbLoop ⟨none⟩ env start fuel s = some r → r.1 = Except.ok () := by
  intro fuel
  induction fuel with
  | zero => intro s r h; simp [wfbLoop] at h
  | succ f ih =>
    intro s r h
    simp only [wfbLoop, has_byte_eq] at h
    split at h
    · cases h; rfl
    · exact ih _ _ h

theorem wfbLoop_some_no_err_of_le (env : HwEnv) (start ms : Nat)
    (hcl : ∀ j, env.clock j ≤ start + ms * 1000) :
    ∀ (fuel : Nat) (s : HwSt) (r : Except Unit Unit × HwSt),
      wfbLoop ⟨some ms⟩ env start fuel s = some r → r.1 = Except.ok () := by
  intro fuel
  induction fuel with
  | zero => intro s r h; simp [wfbLoop] at h
  | succ f ih =>
    intro s r h
    simp only [wfbLoop, has_byte_eq, readClock] at h
    split at h
    · cases h; rfl
    · split at h
      · exact absurd (by assumption) (Nat.not_lt.mpr (hcl _))
      · exact ih _ _ h

theorem wfbLoop_mono (u : MiniUart) (env : HwEnv) (start : Nat) :
    ∀ (fuel fuel2 : Nat) (s : HwSt) (r : Except Unit Unit × HwSt),
      fuel ≤ fuel2 → wfbLoop u env start fuel s = some r →
      wfbLoop u env start fuel2 s = some r := by
  intro fuel
  induction fuel with
  | zero => intro fuel2 s r _ h; simp [wfbLoop] at h
  | succ f ih =>
    intro fuel2 s r hle h
    obtain ⟨f2, rfl⟩ : ∃ f2, fuel2 = f2 + 1 := ⟨fuel2 - 1, by omega⟩
    obtain ⟨t⟩ := u
    cases t with
    | none =>
      simp only [wfbLoop, has_byte_eq] at h ⊢
      split at h
      · simp [*]
      · rename_i hg
        rw [if_neg hg]
        exact ih f2 _ r (by omega) h
    | some ms =>
      simp only [wfbLoop, has_byte_eq, readClock] at h ⊢
      split at h
      · simp [*]
      · rename_i hg
        rw [if_neg hg]
        split at h
        · rename_i hc
          rw [if_pos hc]
          exact h
        · rename_i hc
          rw [if_neg hc]
          exact ih f2 _ r (by omega) h

theorem wfbLoop_preserves (u : MiniUart) (env : HwEnv) (start : Nat) :
    ∀ (fuel : Nat) (s : HwSt) (r : Except Unit Unit × HwSt),
      wfbLoop u env start fuel s = some r →
      r.2.rxIdx = s.rxIdx ∧ r.2.writes = s.writes := by
  intro fuel
  induction fuel with
  | zero => intro s r h; simp [wfbLoop] at h
  | succ f ih =>
    intro s r h
    obtain ⟨t⟩ := u
    cases t with
    | none =>
      simp only [wfbLoop, has_byte_eq] at h
      split at h
      · cases h; exact ⟨rfl, rfl⟩
      · have h2 := ih _ r h
        exact h2
    | some ms =>
      simp only [wfbLoop, has_byte_eq, readClock] at h
      split at h
      · cases h; exact ⟨rfl, rfl⟩
      · split at h
        · cases h; exact ⟨rfl, rfl⟩
        · have h2 := ih _ r h
          exact h2

theorem wait_for_byte_preserves (u : MiniUart) (env : HwEnv) (s : HwSt)
    (fuel : Nat) (r : Except Unit Unit × HwSt)
    (h : MiniUart.wait_for_byte u env s fuel = some r) :
    r.2.rxIdx = s.rxIdx ∧ r.2.writes = s.writes := by
  rw [wait_for_byte_eq] at h
  have h2 := wfbLoop_preserves u env (env.clock s.clockIdx) fuel _ r h
  exact h2

/-- C1: with a timeout of `T` milliseconds configured, `wait_for_byte`
captures the clock at entry as `start` and works against the deadline
`start + T * 1000` microseconds (clock units are microseconds): if the
data-ready bit never sets while the clock is at or below the deadline and
the monotone clock eventually exceeds the deadline, the call returns a
timeout failure `Err`; if the data-ready bit first sets at a poll whose
clock is still at or below the deadline, the call returns `Ok`; and while
the clock never strictly exceeds the deadline the call cannot return
`Err`. -/
theorem c1_wait_for_byte_timeout (env : HwEnv) (T : Nat) (s : HwSt)
    (hmono : Monotone env.clock) :
    ((∀ i, env.clock (s.clockIdx + i) ≤ env.clock s.clockIdx + T * 1000 →
        hasByteAt env (s.lsrIdx + i) = false) →
      (∃ j, env.clock s.clockIdx + T * 1000 < env.clock j) →
      ∃ fuel s2, MiniUart.wait_for_byte ⟨some T⟩ env s fuel = some (Except.error (), s2))
    ∧ (∀ k, (∀ i, i < k → hasByteAt env (s.lsrIdx + i) = false) →
        hasByteAt env (s.lsrIdx + k) = true →
        env.clock (s.clockIdx + k) ≤ env.clock s.clockIdx + T * 1000 →
        MiniUart.wait_for_byte ⟨some T⟩ env s (k + 1) =
          some (Except.ok (),
            { s with clockIdx := s.clockIdx + 1 + k, lsrIdx := s.lsrIdx + k + 1 }))
    ∧ ((∀ j, env.clock j ≤ env.clock s.clockIdx + T * 1000) →
        ∀ fuel r, MiniUart.wait_for_byte ⟨some T⟩ env s fuel = some r →
          r.1 = Except.ok ()) := by
  obtain ⟨c, l, x, w⟩ := s
  dsimp only
  refine ⟨?_, ?_, ?_⟩
  · intro hnb hex
    obtain ⟨j, hj⟩ := hex
    have hjc : c + 1 ≤ j := by
      by_contra hlt
      have : env.clock j ≤ env.clock c := hmono (by omega)
      omega
    have hP : ∃ m, env.clock c + T * 1000 < env.clock (c + 1 + m) :=
      ⟨j - (c + 1), by
        have e : c + 1 + (j - (c + 1)) = j := by omega
        rw [e]; exact hj⟩
    have hPn := Nat.find_spec hP
    have hmin : ∀ m, m < Nat.find hP →
        env.clock (c + 1 + m) ≤ env.clock c + T * 1000 := by
      intro m hm
      have := Nat.find_min hP hm
      omega
    have hfalse : ∀ i, i ≤ Nat.find hP → hasByteAt env (l + i) = false := by
      intro i hi
      refine hnb i ?_
      match i with
      | 0 => exact Nat.le_add_right _ _
      | m + 1 =>
        have := hmin m (by omega)
        have e : c + (m + 1) = c + 1 + m := by omega
        rw [e]; exact this
    have werr := wfbLoop_some_err env (env.clock c) T (Nat.find hP) (c + 1) l x w
      hfalse hmin hPn
    exact ⟨Nat.find hP + 1, _, by rw [wait_for_byte_eq]; exact werr⟩
  · intro k hfk hbk hck
    have hclk : ∀ i, i < k → env.clock (c + 1 + i) ≤ env.clock c + T * 1000 := by
      intro i hi
      exact le_trans (hmono (by omega : c + 1 + i ≤ c + k)) hck
    have wok := wfbLoop_some_ok env (env.clock c) T k (c + 1) l x w hfk hclk hbk
    rw [wait_for_byte_eq]
    exact wok
  · intro hcl fuel r h
    rw [wait_for_byte_eq] at h
    exact wfbLoop_some_no_err_of_le env (env.clock c) T hcl fuel _ r h

/-- Witness for C1: with a 1 ms timeout against a trace whose data-ready
bit never sets and whose clock advances 100 microseconds per read,
`wait_for_byte` returns a timeout failure. -/
theorem c1_wait_for_byte_timeout_witness :
    ∃ fuel s2, MiniUart.wait_for_byte ⟨some 1⟩ cenvNever HwSt.init fuel =
      some (Except.error (), s2) := by
  have hmono : Monotone cenvNever.clock := fun a b hab => by
    simpa [cenvNever] using Nat.mul_le_mul_left 100 hab
  exact (c1_wait_for_byte_timeout cenvNever 1 HwSt.init hmono).1
    (fun i _ => by simp [hasByteAt, cenvNever]) ⟨11, by decide⟩

/-- C9: with no timeout configured, `wait_for_byte` never returns a timeout
failure: it returns success at the first poll where the trace sets the
data-ready bit, yields no result at any fuel while the bit stays clear, and
every returned value is `Ok`. -/
theorem c9_wait_no_timeout (env : HwEnv) (s : HwSt) :
    (∀ k, (∀ i, i < k → hasByteAt env (s.lsrIdx + i) = false) →
        hasByteAt env (s.lsrIdx + k) = true →
        MiniUart.wait_for_byte ⟨none⟩ env s (k + 1) =
          some (Except.ok (),
            { s with clockIdx := s.clockIdx + 1, lsrIdx := s.lsrIdx + k + 1 }))
    ∧ ((∀ i, hasByteAt env (s.lsrIdx + i) = false) →
        ∀ fuel, MiniUart.wait_for_byte ⟨none⟩ env s fuel = none)
    ∧ (∀ fuel r, MiniUart.wait_for_byte ⟨none⟩ env s fuel = some r →
        r.1 = Except.ok ()) := by
  obtain ⟨c, l, x, w⟩ := s
  dsimp only
  refine ⟨?_, ?_, ?_⟩
  · intro k hfk hbk
    rw [wait_for_byte_eq]
    exact wfbLoop_none_ok env (env.clock c) k (c + 1) l x w hfk hbk
  · intro hf fuel
    rw [wait_for_byte_eq]
    exact wfbLoop_none_never env (env.clock c) fuel (c + 1) l x w hf
  · intro fuel r h
    rw [wait_for_byte_eq] at h
    exact wfbLoop_none_no_err env (env.clock c) fuel _ r h

/-- Witness for C9: with no timeout and a trace whose data-ready bit is set
at the first poll, `wait_for_byte` returns success. -/
theorem c9_wait_no_timeout_witness :
    MiniUart.wait_for_byte ⟨none⟩ cenvReady HwSt.init 1 =
      some (Except.ok (), ⟨1, 1, 0, []⟩) :=
  (c9_wait_no_timeout cenvReady HwSt.init).1 0
    (fun i h => absurd h (Nat.not_lt_zero i)) (by decide)

/-- C2: after `new()` returns, the line-control register holds `0b11`, the
baud-rate divisor register holds `270`, the control register holds `0b11`,
and the returned driver has no read timeout configured. -/
theorem c2_new_register_values (r : MuRegs) :
    ((MiniUart.new r).1.2).lcr = 0b11 ∧ ((MiniUart.new r).1.2).baud = 270 ∧
      ((MiniUart.new r).1.2).cntl = 0b11 ∧ ((MiniUart.new r).1.1).timeout = none := by
  refine ⟨rfl, rfl, rfl, rfl⟩

/-- C3: `new()` performs exactly the effect sequence: pins 14 and 15 to the
serial alternate function, the auxiliary-enable read-modify-write, then the
`LCR`, `BAUD` and `CNTL` writes; the read-modify-write sets bit 0 of the
auxiliary-enable register and leaves every other bit unchanged. -/
theorem c3_new_effect_order (r : MuRegs) :
    (MiniUart.new r).2 =
      [InitEffect.setPinAlt 14 FunctionAlt5, InitEffect.setPinAlt 15 FunctionAlt5,
        InitEffect.orMaskAuxEnables 1, InitEffect.writeLcr 0b11,
        InitEffect.writeBaud 270, InitEffect.writeCntl 0b11] ∧
      ((MiniUart.new r).1.2).auxEnables.testBit 0 = true ∧
      ∀ i : Nat, ((MiniUart.new r).1.2).auxEnables.testBit (i + 1) =
        r.auxEnables.testBit (i + 1) := by
  refine ⟨rfl, ?_, ?_⟩
  · simp [MiniUart.new, Nat.testBit_or]
  · intro i
    have h1 : Nat.testBit 1 (i + 1) = false := by
      simp [Nat.testBit_add_one]
    show (r.auxEnables ||| 1).testBit (i + 1) = r.auxEnables.testBit (i + 1)
    rw [Nat.testBit_or, h1, Bool.or_false]

theorem read_byte_succ_true (u : MiniUart) (env : HwEnv) (fuel c l x : Nat)
    (w : List Nat) (h : hasByteAt env l = true) :
    MiniUart.read_byte u env ⟨c, l, x, w⟩ (fuel + 1) =
      some (env.rx x, ⟨c, l + 1, x + 1, w⟩) := by
  simp [MiniUart.read_byte, has_byte, readLSR, readDataReg, hasByteAt] at h ⊢
  simp [h]

theorem read_byte_succ_false (u : MiniUart) (env : HwEnv) (fuel c l x : Nat)
    (w : List Nat) (h : hasByteAt env l = false) :
    MiniUart.read_byte u env ⟨c, l, x, w⟩ (fuel + 1) =
      MiniUart.read_byte u env ⟨c, l + 1, x, w⟩ fuel := by
  simp [MiniUart.read_byte, has_byte, readLSR, hasByteAt] at h ⊢
  simp [h]

theorem read_byte_ready (u : MiniUart) (env : HwEnv) :
    ∀ (n c l x : Nat) (w : List Nat),
      (∀ i, i < n → hasByteAt env (l + i) = false) →
      hasByteAt env (l + n) = true →
      MiniUart.read_byte u env ⟨c, l, x, w⟩ (n + 1) =
        some (env.rx x, ⟨c, l + n + 1, x + 1, w⟩) := by
  intro n
  induction n with
  | zero =>
    intro c l x w _ hb
    rw [Nat.add_zero] at hb
    rw [read_byte_succ_true u env 0 c l x w hb]
  | succ m ih =>
    intro c l x w hfalse hb
    have h0 : hasByteAt env l = false := by simpa using hfalse 0 (by omega)
    rw [read_byte_succ_false u env (m + 1) c l x w h0]
    have step := ih c (l + 1) x w
      (fun i hi => by
        have e : l + 1 + i = l + (i + 1) := by omega
        rw [e]; exact hfalse (i + 1) (by omega))
      (by
        have e : l + 1 + m = l + (m + 1) := by omega
        rw [e]; exact hb)
    have e2 : l + (m + 1) + 1 = l + 1 + m + 1 := by omega
    rw [e2]
    exact step

theorem read_byte_never (u : MiniUart) (env : HwEnv) :
    ∀ (fuel c l x : Nat) (w : List Nat),
      (∀ i, hasByteAt env (l + i) = false) →
      MiniUart.read_byte u env ⟨c, l, x, w⟩ fuel = none := by
  intro fuel
  induction fuel with
  | zero => intro c l x w _; rfl
  | succ f ih =>
    intro c l x w hf
    rw [read_byte_succ_false u env f c l x w (by simpa using hf 0)]
    exact ih c (l + 1) x w (fun i => by
      have e : l + 1 + i = l + (i + 1) := by omega
      rw [e]; exact hf (i + 1))

theorem read_byte_timeout_independent (u u2 : MiniUart) (env : HwEnv) :
    ∀ (fuel : Nat) (s : HwSt),
      MiniUart.read_byte u env s fuel = MiniUart.read_byte u2 env s fuel := by
  intro fuel
  induction fuel with
  | zero => intro s; rfl
  | succ f ih =>
    intro s
    simp only [MiniUart.read_byte, has_byte_eq]
    by_cases hg : hasByteAt env s.lsrIdx = true
    · simp [hg]
    · rw [Bool.not_eq_true] at hg
      simp [hg, ih]

/-- C4: `read_byte` ignores any configured timeout: its result is the same
for every timeout state; when the trace first sets the data-ready bit at
poll `k`, it returns exactly the next byte of the data register with fuel
`k + 1`; and while the bit never sets it spins (no result at any fuel),
never returning a timeout failure. -/
theorem c4_read_byte_ignores_timeout (env : HwEnv) (s : HwSt) :
    (∀ u u2 : MiniUart, ∀ fuel,
        MiniUart.read_byte u env s fuel = MiniUart.read_byte u2 env s fuel)
    ∧ (∀ u : MiniUart, ∀ k, (∀ i, i < k → hasByteAt env (s.lsrIdx + i) = false) →
        hasByteAt env (s.lsrIdx + k) = true →
        MiniUart.read_byte u env s (k + 1) =
          some (env.rx s.rxIdx,
            { s with lsrIdx := s.lsrIdx + k + 1, rxIdx := s.rxIdx + 1 }))
    ∧ (∀ u : MiniUart, (∀ i, hasByteAt env (s.lsrIdx + i) = false) →
        ∀ fuel, MiniUart.read_byte u env s fuel = none) := by
  obtain ⟨c, l, x, w⟩ := s
  dsimp only
  refine ⟨fun u u2 fuel => read_byte_timeout_independent u u2 env fuel _, ?_, ?_⟩
  · intro u k hf hb
    exact read_byte_ready u env k c l x w hf hb
  · intro u hf fuel
    exact read_byte_never u env fuel c l x w hf

/-- Witness for C4: with a 3 ms timeout configured and the data-ready bit
set at the first poll, `read_byte` returns the first received byte. -/
theorem c4_read_byte_ignores_timeout_witness :
    MiniUart.read_byte ⟨some 3⟩ cenvReady HwSt.init 1 = some (0, ⟨0, 1, 1, []⟩) :=
  (c4_read_byte_ignores_timeout cenvReady HwSt.init).2.1 ⟨some 3⟩ 0
    (fun i hi => absurd hi (Nat.not_lt_zero i)) (by decide)

theorem write_byte_succ_ready (u : MiniUart) (env : HwEnv) (b fuel c l x : Nat)
    (w : List Nat) (h : txReadyAt env l = true) :
    MiniUart.write_byte u env b ⟨c, l, x, w⟩ (fuel + 1) =
      some ⟨c, l + 1, x, w ++ [b]⟩ := by
  simp [MiniUart.write_byte, readLSR, writeDataReg, txReadyAt] at h ⊢
  simp [h]

theorem write_byte_succ_blocked (u : MiniUart) (env : HwEnv) (b fuel c l x : Nat)
    (w : List Nat) (h : txReadyAt env l = false) :
    MiniUart.write_byte u env b ⟨c, l, x, w⟩ (fuel + 1) =
      MiniUart.write_byte u env b ⟨c, l + 1, x, w⟩ fuel := by
  simp [MiniUart.write_byte, readLSR, txReadyAt] at h ⊢
  simp [h]

theorem write_byte_first_ready (u : MiniUart) (env : HwEnv) (b : Nat) :
    ∀ (n c l x : Nat) (w : List Nat),
      (∀ i, i < n → txReadyAt env (l + i) = false) →
      txReadyAt env (l + n) = true →
      MiniUart.write_byte u env b ⟨c, l, x, w⟩ (n + 1) =
        some ⟨c, l + n + 1, x, w ++ [b]⟩ := by
  intro n
  induction n with
  | zero =>
    intro c l x w _ hb
    rw [Nat.add_zero] at hb
    rw [write_byte_succ_ready u env b 0 c l x w hb]
  | succ m ih =>
    intro c l x w hfalse hb
    have h0 : txReadyAt env l = false := by simpa using hfalse 0 (by omega)
    rw [write_byte_succ_blocked u env b (m + 1) c l x w h0]
    have step := ih c (l + 1) x w
      (fun i hi => by
        have e : l + 1 + i = l + (i + 1) := by omega
        rw [e]; exact hfalse (i + 1) (by omega))
      (by
        have e : l + 1 + m = l + (m + 1) := by omega
        rw [e]; exact hb)
    have e2 : l + (m + 1) + 1 = l + 1 + m + 1 := by omega
    rw [e2]
    exact step

theorem write_byte_blocked_forever (u : MiniUart) (env : HwEnv) (b : Nat) :
    ∀ (fuel c l x : Nat) (w : List Nat),
      (∀ i, txReadyAt env (l + i) = false) →
      MiniUart.write_byte u env b ⟨c, l, x, w⟩ fuel = none := by
  intro fuel
  induction fuel with
  | zero => intro c l x w _; rfl
  | succ f ih =>
    intro c l x w hf
    rw [write_byte_succ_blocked u env b f c l x w (by simpa using hf 0)]
    exact ih c (l + 1) x w (fun i => by
      have e : l + 1 + i = l + (i + 1) := by omega
      rw [e]; exact hf (i + 1))

/-- C8: `write_byte b` writes exactly `b` to the data register at the first
poll where the transmit-available bit (bit 5 of the line-status register)
is set — the write log is extended by `[b]` and only then — and while the
bit stays clear at every poll it never completes, so nothing is ever
written to the data register. -/
theorem c8_write_byte_waits_for_tx (env : HwEnv) (s : HwSt) (b : Nat) (u : MiniUart) :
    (∀ k, (∀ i, i < k → txReadyAt env (s.lsrIdx + i) = false) →
        txReadyAt env (s.lsrIdx + k) = true →
        MiniUart.write_byte u env b s (k + 1) =
          some { s with lsrIdx := s.lsrIdx + k + 1, writes := s.writes ++ [b] })
    ∧ ((∀ i, txReadyAt env (s.lsrIdx + i) = false) →
        ∀ fuel, MiniUart.write_byte u env b s fuel = none) := by
  obtain ⟨c, l, x, w⟩ := s
  dsimp only
  refine ⟨?_, ?_⟩
  · intro k hf hb
    exact write_byte_first_ready u env b k c l x w hf hb
  · intro hf fuel
    exact write_byte_blocked_forever u env b fuel c l x w hf

/-- Witness for C8: with the transmit-available bit set at the first poll,
`write_byte 65` appends exactly the byte 65 to the data-register log. -/
theorem c8_write_byte_waits_for_tx_witness :
    MiniUart.write_byte ⟨none⟩ cenvTx 65 HwSt.init 1 = some ⟨0, 1, 0, [65]⟩ :=
  (c8_write_byte_waits_for_tx cenvTx HwSt.init 65 ⟨none⟩).1 0
    (fun i hi => absurd hi (Nat.not_lt_zero i)) (by decide)

theorem write_str_tx_ready (u : MiniUart) (env : HwEnv)
    (htx : ∀ i, txReadyAt env i = true) :
    ∀ (bs : List Nat) (s : HwSt),
      ∃ s2, MiniUart.write_str u env bs s 1 = some (Except.ok (), s2) ∧
        s2.writes = s.writes ++ crlfExpand bs := by
  intro bs
  induction bs with
  | nil =>
    intro s
    exact ⟨s, rfl, by simp [crlfExpand]⟩
  | cons b rest ih =>
    intro s
    obtain ⟨c, l, x, w⟩ := s
    by_cases hb : b = 10
    · subst hb
      have w1 := write_byte_succ_ready u env 13 0 c l x w (htx l)
      have w2 := write_byte_succ_ready u env 10 0 c (l + 1) x (w ++ [13]) (htx (l + 1))
      rw [Nat.zero_add] at w1 w2
      obtain ⟨s3, h3, hw3⟩ := ih ⟨c, l + 1 + 1, x, w ++ [13] ++ [10]⟩
      refine ⟨s3, ?_, ?_⟩
      · simp only [MiniUart.write_str, show ((10 : Nat) == 10) = true from rfl,
          if_true, w1, w2, h3]
      · rw [hw3]
        simp [crlfExpand]
    · have hbb : (b == 10) = false := by simp [hb]
      have w1 := write_byte_succ_ready u env b 0 c l x w (htx l)
      rw [Nat.zero_add] at w1
      obtain ⟨s3, h3, hw3⟩ := ih ⟨c, l + 1, x, w ++ [b]⟩
      refine ⟨s3, ?_, ?_⟩
      · simp [MiniUart.write_str, hbb, w1, h3]
      · rw [hw3]
        simp [crlfExpand, hbb]

/-- C7: when the transmit-available bit is always set, the text write emits,
for each input byte in order, a carriage return followed by the byte when
the byte is a line feed and just the byte otherwise, all through
`write_byte`, and returns success. -/
theorem c7_write_str_crlf (u : MiniUart) (env : HwEnv) (s : HwSt) (bs : List Nat)
    (htx : ∀ i, txReadyAt env i = true) :
    ∃ fuel s2, MiniUart.write_str u env bs s fuel = some (Except.ok (), s2) ∧
      s2.writes = s.writes ++ crlfExpand bs := by
  obtain ⟨s2, h1, h2⟩ := write_str_tx_ready u env htx bs s
  exact ⟨1, s2, h1, h2⟩

/-- Witness for C7: writing the text bytes of the string with characters a,
line feed, b produces exactly the output byte sequence 97, 13, 10, 98. -/
theorem c7_write_str_crlf_witness :
    ∃ fuel s2, MiniUart.write_str ⟨none⟩ cenvTx [97, 10, 98] HwSt.init fuel =
      some (Except.ok (), s2) ∧ s2.writes = [97, 13, 10, 98] := by
  obtain ⟨f, s2, h1, h2⟩ := c7_write_str_crlf ⟨none⟩ cenvTx HwSt.init [97, 10, 98]
    (fun i => by simp [txReadyAt, cenvTx, LsrStatus.TxAvailable])
  exact ⟨f, s2, h1, by rw [h2]; decide⟩

theorem wait_for_byte_mono (u : MiniUart) (env : HwEnv) (s : HwSt)
    (fuel fuel2 : Nat) (r : Except Unit Unit × HwSt) (hle : fuel ≤ fuel2)
    (h : MiniUart.wait_for_byte u env s fuel = some r) :
    MiniUart.wait_for_byte u env s fuel2 = some r := by
  rw [wait_for_byte_eq] at h ⊢
  exact wfbLoop_mono u env _ fuel fuel2 _ r hle h

theorem range_map_shift (g : Nat → Nat) (M x : Nat) :
    (List.range (M + 1)).map (fun j => g (x + j)) =
      g x :: (List.range M).map (fun j => g (x + 1 + j)) := by
  rw [List.range_succ_eq_map, List.map_cons, List.map_map]
  refine congrArg₂ List.cons (by rw [Nat.add_zero]) ?_
  congr 1
  funext j
  simp only [Function.comp_apply]
  congr 1
  omega

theorem drainLoop_burst (u : MiniUart) (env : HwEnv) (f : Nat) :
    ∀ (buf : List Nat) (k c l x : Nat) (w : List Nat),
      (∀ i, i < 2 * k → hasByteAt env (l + i) = true) →
      hasByteAt env (l + 2 * k) = false →
      drainLoop u env (f + 1) buf ⟨c, l, x, w⟩ =
        some (min buf.length k,
          (List.range (min buf.length k)).map (fun j => env.rx (x + j)) ++
            buf.drop (min buf.length k),
          ⟨c, l + 2 * min buf.length k + 1, x + min buf.length k, w⟩) := by
  intro buf
  induction buf with
  | nil =>
    intro k c l x w _ _
    simp [drainLoop, has_byte, readLSR]
  | cons b rest ih =>
    intro k c l x w hav hid
    cases k with
    | zero =>
      have h0 : hasByteAt env l = false := by simpa using hid
      simp [drainLoop, has_byte_eq, h0]
    | succ m =>
      have hg : hasByteAt env l = true := by simpa using hav 0 (by omega)
      have hr : hasByteAt env (l + 1) = true := by simpa using hav 1 (by omega)
      have rb := read_byte_succ_true u env f c (l + 1) x w hr
      have step := ih m c (l + 1 + 1) (x + 1) w
        (fun i hi => by
          have e : l + 1 + 1 + i = l + (i + 2) := by omega
          rw [e]; exact hav (i + 2) (by omega))
        (by
          have e : l + 1 + 1 + 2 * m = l + 2 * (m + 1) := by omega
          rw [e]; exact hid)
      simp only [drainLoop, has_byte_eq, hg, eq_self_iff_true, if_true]
      rw [rb]
      dsimp only
      rw [step]
      dsimp only
      rw [List.length_cons, Nat.succ_min_succ, List.drop_succ_cons]
      rw [range_map_shift env.rx (min rest.length m) x]
      have e1 : l + 2 * (min rest.length m + 1) + 1 =
          l + 1 + 1 + 2 * min rest.length m + 1 := by omega
      have e2 : x + (min rest.length m + 1) = x + 1 + min rest.length m := by omega
      rw [e1, e2]
      rfl

/-- C5: whenever `wait_for_byte` succeeds and the trace then keeps the
data-ready bit set long enough to supply exactly `k` bytes before going
idle, the buffered read returns the count `min buf.length k`, the first
`min buf.length k` slots hold the bytes read from the data register in
order, the remaining slots of the caller's buffer are untouched, and the
clock is never read again (no second `wait_for_byte`): the final state's
`clockIdx` is the one `wait_for_byte` left. -/
theorem c5_buffered_read_drain (u : MiniUart) (env : HwEnv) (s s1 : HwSt)
    (buf : List Nat) (k fuel : Nat)
    (hw : MiniUart.wait_for_byte u env s fuel = some (Except.ok (), s1))
    (hav : ∀ i, i < 2 * k → hasByteAt env (s1.lsrIdx + i) = true)
    (hid : hasByteAt env (s1.lsrIdx + 2 * k) = false) :
    MiniUart.read u env buf s (fuel + 1) =
      some (Except.ok (min buf.length k),
        (List.range (min buf.length k)).map (fun j => env.rx (s1.rxIdx + j)) ++
          buf.drop (min buf.length k),
        { s1 with
            lsrIdx := s1.lsrIdx + 2 * min buf.length k + 1,
            rxIdx := s1.rxIdx + min buf.length k }) := by
  have hw2 := wait_for_byte_mono u env s fuel (fuel + 1) _ (by omega) hw
  obtain ⟨c1, l1, x1, w1⟩ := s1
  have hd := drainLoop_burst u env fuel buf k c1 l1 x1 w1 hav hid
  simp only [MiniUart.read, hw2, hd]

/-- Witness for C5: a buffered read into a 4-slot buffer where the hardware
has exactly 2 bytes ready returns count 2, fills the first two slots with
the received bytes 50 and 51, and leaves the last two slots untouched. -/
theorem c5_buffered_read_drain_witness :
    MiniUart.read ⟨none⟩ cenvBurst [7, 7, 7, 7] HwSt.init 2 =
      some (Except.ok 2, [50, 51, 7, 7], ⟨1, 6, 2, []⟩) := by
  have h := c5_buffered_read_drain ⟨none⟩ cenvBurst HwSt.init ⟨1, 1, 0, []⟩
    [7, 7, 7, 7] 2 1 (by decide)
    (fun i hi => by
      have h5 : 1 + i < 5 := by omega
      simp [hasByteAt, cenvBurst, LsrStatus.DataReady, h5])
    (by decide)
  exact h

/-- C6: when the initial `wait_for_byte` of a buffered read signals a
timeout, the read returns the timed-out error, the caller's buffer is
returned unchanged, no byte is consumed from the data register, and
nothing is written. -/
theorem c6_buffered_read_timeout (u : MiniUart) (env : HwEnv) (s s1 : HwSt)
    (buf : List Nat) (fuel : Nat)
    (hw : MiniUart.wait_for_byte u env s fuel = some (Except.error (), s1)) :
    MiniUart.read u env buf s fuel = some (Except.error IoErrorKind.timedOut, buf, s1) ∧
      s1.rxIdx = s.rxIdx ∧ s1.writes = s.writes := by
  have hp := wait_for_byte_preserves u env s fuel _ hw
  constructor
  · simp only [MiniUart.read, hw]
  · exact hp

/-- Witness for C6: with a 1 ms timeout and a clock jumping 2000
microseconds per read, a buffered read times out and hands back the buffer
unchanged. -/
theorem c6_buffered_read_timeout_witness :
    MiniUart.read ⟨some 1⟩ cenvTimeout [7, 7] HwSt.init 1 =
      some (Except.error IoErrorKind.timedOut, [7, 7], ⟨2, 1, 0, []⟩) :=
  (c6_buffered_read_timeout ⟨some 1⟩ cenvTimeout HwSt.init ⟨2, 1, 0, []⟩ [7, 7] 1
    (by decide)).1

/-- C10: a buffered read into a zero-length buffer returns a count of 0
without reading any byte from the data register whenever the initial
`wait_for_byte` succeeds (one further LSR poll still happens), and it still
returns the timed-out error when `wait_for_byte` fails. -/
theorem c10_zero_length_buffer (u : MiniUart) (env : HwEnv) (s : HwSt) (fuel : Nat) :
    (∀ s1, MiniUart.wait_for_byte u env s fuel = some (Except.ok (), s1) →
      MiniUart.read u env [] s fuel =
        some (Except.ok 0, [], { s1 with lsrIdx := s1.lsrIdx + 1 }) ∧
        s1.rxIdx = s.rxIdx)
    ∧ (∀ s1, MiniUart.wait_for_byte u env s fuel = some (Except.error (), s1) →
      MiniUart.read u env [] s fuel =
        some (Except.error IoErrorKind.timedOut, [], s1)) := by
  constructor
  · intro s1 hw
    have hp := wait_for_byte_preserves u env s fuel _ hw
    constructor
    · simp only [MiniUart.read, hw, drainLoop, has_byte_eq]
    · exact hp.1
  · intro s1 hw
    simp only [MiniUart.read, hw]

/-- Witness for C10: with the data-ready bit set, a read into an empty
buffer returns count 0 and consumes nothing from the data register. -/
theorem c10_zero_length_buffer_witness :
    MiniUart.read ⟨none⟩ cenvReady [] HwSt.init 1 =
      some (Except.ok 0, [], ⟨1, 2, 0, []⟩) ∧
      (⟨1, 1, 0, []⟩ : HwSt).rxIdx = HwSt.init.rxIdx :=
  (c10_zero_length_buffer ⟨none⟩ cenvReady HwSt.init 1).1 ⟨1, 1, 0, []⟩ (by decide)
